import Mathlib

/-!
# Verification of the elana-project Boolean retrieval system

Shallow embedding of `src/indexBuilder.py`, `src/BooleanRetrieval.py` and
`src/collectionStatistics.py`, with theorems settling the specification
claims about merging, query evaluation, index construction and the
collection statistics.

Document IDs are modelled as `Nat`; posting lists as `List Nat`; Python
dicts as association lists or as explicitly-updated functions, as noted at
each definition.
-/

namespace Elana

/-! ### Tokenization

`BooleanRetrieval.parse_and_execute_query` tokenizes with
`re.findall(r'\b\w+\b', query)` after `query.strip().lower()`;
`InvertedIndex._build_index` uses `re.findall(r'\b[a-z0-9]+\b', text.lower())`.
We model the ASCII fragment of `\w` (the inputs of interest are ASCII):
a maximal run of word characters always has `\b` at both ends, so
`\b\w+\b` yields exactly the maximal word-character runs. -/

/-- ASCII fragment of the regex class `\w` = `[A-Za-z0-9_]`. -/
def isWordChar (c : Char) : Bool :=
  ('a' ≤ c && c ≤ 'z') || ('A' ≤ c && c ≤ 'Z') || ('0' ≤ c && c ≤ '9') || c = '_'

/-- The regex class `[a-z0-9]` used by the index builder's tokenizer. -/
def isIndexChar (c : Char) : Bool :=
  ('a' ≤ c && c ≤ 'z') || ('0' ≤ c && c ≤ '9')

/-- Accumulator-based extraction of the maximal runs of characters
satisfying `p` (the accumulator holds the current run, reversed). -/
def runsAux (p : Char → Bool) : List Char → List Char → List (List Char)
  | [], cur => if cur.isEmpty then [] else [cur.reverse]
  | c :: cs, cur =>
    if p c then runsAux p cs (c :: cur)
    else if cur.isEmpty then runsAux p cs []
    else cur.reverse :: runsAux p cs []

/-- The maximal runs of characters of `s` satisfying `p`, as strings. -/
def wordRuns (p : Char → Bool) (s : String) : List String :=
  (runsAux p s.data []).map List.asString

/-- Python `str.lower()` on ASCII: `Char.toLower` on each character
(character-wise, since ASCII lowering never changes character counts). -/
def lowerStr (s : String) : String :=
  (s.data.map Char.toLower).asString

/-- `re.findall(r'\b\w+\b', query.strip().lower())`: the maximal
word-character runs of the lower-cased query (`strip` cannot change them,
as it only removes whitespace, which is not a word character). -/
def tokenize (query : String) : List String :=
  wordRuns isWordChar (lowerStr query)

/-- `re.findall(r'\b[a-z0-9]+\b', text.lower())`: a maximal word-character
run of the lowered text matches iff it contains no underscore (an
underscore is a word character, so `\b` fails next to it), in which case
the whole run is the match. -/
def docWords (text : String) : List String :=
  (wordRuns isWordChar (lowerStr text)).filter (fun w => w.data.all isIndexChar)

/-! ### The generic posting-list merge (`BooleanRetrieval._merge_two_lists`)

Direct translation of the two-pointer loop: while both lists are nonempty
compare heads; afterwards the remainder of `list1` is appended when
`keep_left_only` and the remainder of `list2` when `keep_right_only`
(when one list is exhausted only the other has a remainder). -/

def merge_two_lists (list1 list2 : List Nat)
    (keep_both keep_left_only keep_right_only : Bool) : List Nat :=
  match list1, list2 with
  | [], l2 => if keep_right_only then l2 else []
  | l1, [] => if keep_left_only then l1 else []
  | x :: xs, y :: ys =>
    if x = y then
      (if keep_both then [x] else []) ++
        merge_two_lists xs ys keep_both keep_left_only keep_right_only
    else if x < y then
      (if keep_left_only then [x] else []) ++
        merge_two_lists xs (y :: ys) keep_both keep_left_only keep_right_only
    else
      (if keep_right_only then [y] else []) ++
        merge_two_lists (x :: xs) ys keep_both keep_left_only keep_right_only
termination_by list1.length + list2.length
decreasing_by all_goals simp +arith

/-- `BooleanRetrieval.merge_and`: intersection merge. -/
def merge_and (list1 list2 : List Nat) : List Nat :=
  merge_two_lists list1 list2 true false false

/-- `BooleanRetrieval.merge_or`: union merge. -/
def merge_or (list1 list2 : List Nat) : List Nat :=
  merge_two_lists list1 list2 true true true

/-- `BooleanRetrieval.merge_not`: difference merge (in `list1`, not in `list2`). -/
def merge_not (list1 list2 : List Nat) : List Nat :=
  merge_two_lists list1 list2 false true false

/-! ### Query evaluation (`BooleanRetrieval.parse_and_execute_query`)

The retrieval index is an association list `String × List Nat`
(the dict `self.index.index`); `get_postings` models
`self.index.index.get(token, [])`.  The evaluation stack is a Lean list
whose HEAD is the top of the Python stack (Python appends and pops at the
end).  Consequently Python's final `stack[0]` — index 0, the BOTTOM of the
stack — is the LAST element of our list. -/

def get_postings (idx : List (String × List Nat)) (token : String) : List Nat :=
  match idx.find? (fun p => p.1 == token) with
  | some p => p.2
  | none => []

/-- One iteration of the token loop: operators with at least two operands
pop `right` then `left` and push the merge; operators with fewer operands
leave the stack unchanged; any other token pushes its posting list. -/
def evalToken (idx : List (String × List Nat))
    (stack : List (List Nat)) (token : String) : List (List Nat) :=
  if token = "and" then
    match stack with
    | right :: left :: rest => merge_and left right :: rest
    | _ => stack
  else if token = "or" then
    match stack with
    | right :: left :: rest => merge_or left right :: rest
    | _ => stack
  else if token = "not" then
    match stack with
    | right :: left :: rest => merge_not left right :: rest
    | _ => stack
  else
    get_postings idx token :: stack

/-- `parse_and_execute_query`: fold the tokens over an initially empty
stack, then return Python's `stack[0]` (the bottom of the stack, i.e. the
last element of our head-is-top list) — or `[]` when the stack is empty. -/
def parse_and_execute_query (idx : List (String × List Nat))
    (query : String) : List Nat :=
  let stack := (tokenize query).foldl (evalToken idx) []
  match stack.getLast? with
  | some l => l
  | none => []

/-! ### Unfolding equations and an induction principle for the merge -/

theorem merge_nil_left (l2 : List Nat) (kb kl kr : Bool) :
    merge_two_lists [] l2 kb kl kr = if kr then l2 else [] := by
  rw [merge_two_lists]

theorem merge_nil_right (l1 : List Nat) (kb kl kr : Bool) :
    merge_two_lists l1 [] kb kl kr = if kl then l1 else [] := by
  cases l1 with
  | nil => rw [merge_two_lists]; cases kr <;> cases kl <;> rfl
  | cons x xs =>
    rw [merge_two_lists]
    simp

theorem merge_cons_cons (x y : Nat) (xs ys : List Nat) (kb kl kr : Bool) :
    merge_two_lists (x :: xs) (y :: ys) kb kl kr =
      if x = y then
        (if kb then [x] else []) ++ merge_two_lists xs ys kb kl kr
      else if x < y then
        (if kl then [x] else []) ++ merge_two_lists xs (y :: ys) kb kl kr
      else
        (if kr then [y] else []) ++ merge_two_lists (x :: xs) ys kb kl kr := by
  rw [merge_two_lists]

/-- Induction along the call tree of `merge_two_lists` (the flags do not
influence the control flow, so they do not appear). -/
theorem merge_rec (motive : List Nat → List Nat → Prop)
    (h1 : ∀ l2, motive [] l2)
    (h2 : ∀ l1, motive l1 [])
    (h3 : ∀ a xs ys, motive xs ys → motive (a :: xs) (a :: ys))
    (h4 : ∀ a xs b ys, a < b → motive xs (b :: ys) → motive (a :: xs) (b :: ys))
    (h5 : ∀ a xs b ys, b < a → motive (a :: xs) ys → motive (a :: xs) (b :: ys)) :
    ∀ l1 l2, motive l1 l2 := by
  have key : ∀ n l1 l2, l1.length + l2.length ≤ n → motive l1 l2 := by
    intro n
    induction n with
    | zero =>
      intro l1 l2 h
      match l1, l2 with
      | [], l2 => exact h1 l2
      | a :: xs, l2 => simp at h
    | succ n ih =>
      intro l1 l2 h
      match l1, l2 with
      | [], l2 => exact h1 l2
      | l1, [] => exact h2 l1
      | a :: xs, b :: ys =>
        rcases lt_trichotomy a b with hab | hab | hab
        · exact h4 a xs b ys hab (ih xs (b :: ys) (by simp at h ⊢; omega))
        · subst hab
          exact h3 a xs ys (ih xs ys (by simp at h ⊢; omega))
        · exact h5 a xs b ys hab (ih (a :: xs) ys (by simp at h ⊢; omega))
  intro l1 l2
  exact key (l1.length + l2.length) l1 l2 le_rfl

/-- Every element of a merge result comes from one of the two inputs. -/
theorem mem_merge_sub (kb kl kr : Bool) :
    ∀ l1 l2 x, x ∈ merge_two_lists l1 l2 kb kl kr → x ∈ l1 ∨ x ∈ l2 := by
  apply merge_rec (fun l1 l2 => ∀ x, x ∈ merge_two_lists l1 l2 kb kl kr → x ∈ l1 ∨ x ∈ l2)
  · intro l2 x hx
    rw [merge_nil_left] at hx
    right
    cases kr <;> simp_all
  · intro l1 x hx
    rw [merge_nil_right] at hx
    left
    cases kl <;> simp_all
  · intro a xs ys IH x hx
    rw [merge_cons_cons, if_pos rfl] at hx
    rcases List.mem_append.1 hx with hx | hx
    · left; cases kb <;> simp_all
    · rcases IH x hx with h | h
      · exact Or.inl (List.mem_cons_of_mem a h)
      · exact Or.inr (List.mem_cons_of_mem a h)
  · intro a xs b ys hab IH x hx
    rw [merge_cons_cons, if_neg (Nat.ne_of_lt hab), if_pos hab] at hx
    rcases List.mem_append.1 hx with hx | hx
    · left; cases kl <;> simp_all
    · rcases IH x hx with h | h
      · exact Or.inl (List.mem_cons_of_mem a h)
      · exact Or.inr h
  · intro a xs b ys hab IH x hx
    rw [merge_cons_cons, if_neg (Nat.ne_of_gt hab), if_neg (by omega)] at hx
    rcases List.mem_append.1 hx with hx | hx
    · right; cases kr <;> simp_all
    · rcases IH x hx with h | h
      · exact Or.inl h
      · exact Or.inr (List.mem_cons_of_mem b h)

/-- On strictly ascending inputs, any merge result is strictly ascending. -/
theorem merge_sorted (kb kl kr : Bool) :
    ∀ l1 l2, l1.Sorted (· < ·) → l2.Sorted (· < ·) →
      (merge_two_lists l1 l2 kb kl kr).Sorted (· < ·) := by
  apply merge_rec
    (fun l1 l2 => l1.Sorted (· < ·) → l2.Sorted (· < ·) →
      (merge_two_lists l1 l2 kb kl kr).Sorted (· < ·))
  · intro l2 _ h2
    rw [merge_nil_left]
    cases kr <;> simp_all
  · intro l1 h1 _
    rw [merge_nil_right]
    cases kl <;> simp_all
  · intro a xs ys IH h1 h2
    have hxs := (List.sorted_cons.1 h1).1
    have hys := (List.sorted_cons.1 h2).1
    have hrec := IH h1.of_cons h2.of_cons
    rw [merge_cons_cons, if_pos rfl]
    cases kb with
    | false => simpa using hrec
    | true =>
      simp only [List.singleton_append]
      refine List.sorted_cons.2 ⟨fun z hz => ?_, hrec⟩
      rcases mem_merge_sub true kl kr xs ys z hz with h | h
      · exact hxs z h
      · exact hys z h
  · intro a xs b ys hab IH h1 h2
    have hxs := (List.sorted_cons.1 h1).1
    have hys := (List.sorted_cons.1 h2).1
    have hrec := IH h1.of_cons h2
    rw [merge_cons_cons, if_neg (Nat.ne_of_lt hab), if_pos hab]
    cases kl with
    | false => simpa using hrec
    | true =>
      simp only [List.singleton_append]
      refine List.sorted_cons.2 ⟨fun z hz => ?_, hrec⟩
      rcases mem_merge_sub kb true kr xs (b :: ys) z hz with h | h
      · exact hxs z h
      · rcases List.mem_cons.1 h with h | h
        · omega
        · have := hys z h; omega
  · intro a xs b ys hab IH h1 h2
    have hxs := (List.sorted_cons.1 h1).1
    have hys := (List.sorted_cons.1 h2).1
    have hrec := IH h1 h2.of_cons
    rw [merge_cons_cons, if_neg (Nat.ne_of_gt hab), if_neg (by omega)]
    cases kr with
    | false => simpa using hrec
    | true =>
      simp only [List.singleton_append]
      refine List.sorted_cons.2 ⟨fun z hz => ?_, hrec⟩
      rcases mem_merge_sub kb kl true (a :: xs) ys z hz with h | h
      · rcases List.mem_cons.1 h with h | h
        · omega
        · have := hxs z h; omega
      · exact hys z h

/-- Membership characterization of the generic merge on strictly ascending
inputs: the flags select exactly which of the three membership regions
(`both`, `left only`, `right only`) survive. -/
theorem mem_merge (kb kl kr : Bool) :
    ∀ l1 l2, l1.Sorted (· < ·) → l2.Sorted (· < ·) →
      ∀ x, x ∈ merge_two_lists l1 l2 kb kl kr ↔
        (kb = true ∧ x ∈ l1 ∧ x ∈ l2) ∨ (kl = true ∧ x ∈ l1 ∧ x ∉ l2) ∨
        (kr = true ∧ x ∉ l1 ∧ x ∈ l2) := by
  apply merge_rec
    (fun l1 l2 => l1.Sorted (· < ·) → l2.Sorted (· < ·) →
      ∀ x, x ∈ merge_two_lists l1 l2 kb kl kr ↔
        (kb = true ∧ x ∈ l1 ∧ x ∈ l2) ∨ (kl = true ∧ x ∈ l1 ∧ x ∉ l2) ∨
        (kr = true ∧ x ∉ l1 ∧ x ∈ l2))
  · intro l2 _ _ x
    rw [merge_nil_left]
    cases kr <;> simp
  · intro l1 _ _ x
    rw [merge_nil_right]
    cases kl <;> simp
  · intro a xs ys IH h1 h2 x
    have hxs := (List.sorted_cons.1 h1).1
    have hys := (List.sorted_cons.1 h2).1
    have hax : a ∉ xs := fun hm => lt_irrefl a (hxs a hm)
    have hay : a ∉ ys := fun hm => lt_irrefl a (hys a hm)
    have IH' := IH h1.of_cons h2.of_cons x
    rw [merge_cons_cons, if_pos rfl]
    by_cases hx : x = a
    · subst hx
      cases kb <;> simp_all
    · simp only [List.mem_append, List.mem_cons, IH']
      cases kb <;> cases kl <;> cases kr <;> simp_all
  · intro a xs b ys hab IH h1 h2 x
    have hxs := (List.sorted_cons.1 h1).1
    have hys := (List.sorted_cons.1 h2).1
    have hax : a ∉ xs := fun hm => lt_irrefl a (hxs a hm)
    have hab' : a ∉ b :: ys := by
      intro hm
      rcases List.mem_cons.1 hm with h | h
      · omega
      · have := hys a h; omega
    have IH' := IH h1.of_cons h2 x
    rw [merge_cons_cons, if_neg (Nat.ne_of_lt hab), if_pos hab]
    by_cases hx : x = a
    · subst hx
      cases kl <;> simp_all
    · simp only [List.mem_append, List.mem_cons, IH']
      cases kb <;> cases kl <;> cases kr <;> simp_all
  · intro a xs b ys hab IH h1 h2 x
    have hxs := (List.sorted_cons.1 h1).1
    have hys := (List.sorted_cons.1 h2).1
    have hby : b ∉ ys := fun hm => lt_irrefl b (hys b hm)
    have hba : b ∉ a :: xs := by
      intro hm
      rcases List.mem_cons.1 hm with h | h
      · omega
      · have := hxs b h; omega
    have IH' := IH h1 h2.of_cons x
    rw [merge_cons_cons, if_neg (Nat.ne_of_gt hab), if_neg (by omega)]
    by_cases hx : x = b
    · subst hx
      cases kr <;> simp_all
    · simp only [List.mem_append, List.mem_cons, IH']
      cases kb <;> cases kl <;> cases kr <;> simp_all

/-- Two strictly ascending lists with the same members are equal. -/
theorem eq_of_sorted_of_mem_iff {l1 l2 : List Nat}
    (h1 : l1.Sorted (· < ·)) (h2 : l2.Sorted (· < ·))
    (h : ∀ x, x ∈ l1 ↔ x ∈ l2) : l1 = l2 :=
  List.eq_of_perm_of_sorted
    ((List.perm_ext_iff_of_nodup h1.nodup h2.nodup).2 h) h1 h2

/-! ### Claim C1: set semantics of the three merges -/

/-- C1: for sorted duplicate-free ascending lists `A` and `B`,
`merge_and A B` is the sorted list of the elements in both `A` and `B`
(set intersection), `merge_or A B` the sorted list of the elements in `A`
or `B` (set union), and `merge_not A B` the sorted list of the elements of
`A` not in `B` (set difference).  Each result is stated as: strictly
ascending, and with exactly the members of the corresponding set — a
strictly ascending list is uniquely determined by its members
(`eq_of_sorted_of_mem_iff`), so this pins each result down to the sorted
duplicate-free enumeration of that set. -/
theorem merge_ops_set_semantics (A B : List Nat)
    (hA : A.Sorted (· < ·)) (hB : B.Sorted (· < ·)) :
    ((merge_and A B).Sorted (· < ·) ∧
      (∀ x, x ∈ merge_and A B ↔ x ∈ A ∧ x ∈ B)) ∧
    ((merge_or A B).Sorted (· < ·) ∧
      (∀ x, x ∈ merge_or A B ↔ x ∈ A ∨ x ∈ B)) ∧
    ((merge_not A B).Sorted (· < ·) ∧
      (∀ x, x ∈ merge_not A B ↔ x ∈ A ∧ x ∉ B)) := by
  refine ⟨⟨merge_sorted _ _ _ A B hA hB, fun x => ?_⟩,
    ⟨merge_sorted _ _ _ A B hA hB, fun x => ?_⟩,
    ⟨merge_sorted _ _ _ A B hA hB, fun x => ?_⟩⟩
  · rw [merge_and, mem_merge true false false A B hA hB x]
    by_cases hxB : x ∈ B <;> simp [hxB]
  · rw [merge_or, mem_merge true true true A B hA hB x]
    by_cases hxA : x ∈ A <;> by_cases hxB : x ∈ B <;> simp [hxA, hxB]
  · rw [merge_not, mem_merge false true false A B hA hB x]
    by_cases hxB : x ∈ B <;> simp [hxB]

/-- Witness for C1 at `A = [1, 3]`, `B = [2, 3]`. -/
theorem merge_ops_set_semantics_witness :
    ([1, 3] : List Nat).Sorted (· < ·) ∧ ([2, 3] : List Nat).Sorted (· < ·) ∧
    (((merge_and [1, 3] [2, 3]).Sorted (· < ·) ∧
        (∀ x, x ∈ merge_and [1, 3] [2, 3] ↔ x ∈ [1, 3] ∧ x ∈ [2, 3])) ∧
      ((merge_or [1, 3] [2, 3]).Sorted (· < ·) ∧
        (∀ x, x ∈ merge_or [1, 3] [2, 3] ↔ x ∈ [1, 3] ∨ x ∈ [2, 3])) ∧
      ((merge_not [1, 3] [2, 3]).Sorted (· < ·) ∧
        (∀ x, x ∈ merge_not [1, 3] [2, 3] ↔ x ∈ [1, 3] ∧ x ∉ [2, 3]))) :=
  ⟨by decide, by decide,
    merge_ops_set_semantics [1, 3] [2, 3] (by decide) (by decide)⟩

/-! ### Claim C9: idempotence of the merges -/

/-- C9: for every sorted duplicate-free ascending list `A`,
`merge_and A A = A`, `merge_or A A = A` and `merge_not A A = []`.
(The proof does not even need the sortedness hypothesis: on equal heads
the loop always consumes both lists in lockstep.) -/
theorem merge_ops_idempotent (A : List Nat) (_hA : A.Sorted (· < ·)) :
    merge_and A A = A ∧ merge_or A A = A ∧ merge_not A A = [] := by
  clear _hA
  induction A with
  | nil =>
    refine ⟨?_, ?_, ?_⟩ <;> simp [merge_and, merge_or, merge_not, merge_nil_left]
  | cons a as IH =>
    refine ⟨?_, ?_, ?_⟩ <;>
      simp [merge_and, merge_or, merge_not, merge_cons_cons] at IH ⊢ <;>
      simp [IH]

/-- Witness for C9 at `A = [2, 5, 9]`. -/
theorem merge_ops_idempotent_witness :
    ([2, 5, 9] : List Nat).Sorted (· < ·) ∧
    (merge_and [2, 5, 9] [2, 5, 9] = [2, 5, 9] ∧
      merge_or [2, 5, 9] [2, 5, 9] = [2, 5, 9] ∧
      merge_not [2, 5, 9] [2, 5, 9] = []) :=
  ⟨by decide, merge_ops_idempotent [2, 5, 9] (by decide)⟩

/-! ### Claim C10: commutativity of the symmetric merges -/

/-- C10: for sorted duplicate-free ascending lists `A` and `B`,
`merge_and A B = merge_and B A` and `merge_or A B = merge_or B A`. -/
theorem merge_ops_commutative (A B : List Nat)
    (hA : A.Sorted (· < ·)) (hB : B.Sorted (· < ·)) :
    merge_and A B = merge_and B A ∧ merge_or A B = merge_or B A := by
  constructor
  · refine eq_of_sorted_of_mem_iff (merge_sorted _ _ _ A B hA hB)
      (merge_sorted _ _ _ B A hB hA) (fun x => ?_)
    simp only [merge_and]
    rw [mem_merge true false false A B hA hB x,
      mem_merge true false false B A hB hA x]
    tauto
  · refine eq_of_sorted_of_mem_iff (merge_sorted _ _ _ A B hA hB)
      (merge_sorted _ _ _ B A hB hA) (fun x => ?_)
    simp only [merge_or]
    rw [mem_merge true true true A B hA hB x,
      mem_merge true true true B A hB hA x]
    tauto

/-- Witness for C10 at `A = [1, 4]`, `B = [2, 4, 7]`. -/
theorem merge_ops_commutative_witness :
    ([1, 4] : List Nat).Sorted (· < ·) ∧ ([2, 4, 7] : List Nat).Sorted (· < ·) ∧
    (merge_and [1, 4] [2, 4, 7] = merge_and [2, 4, 7] [1, 4] ∧
      merge_or [1, 4] [2, 4, 7] = merge_or [2, 4, 7] [1, 4]) :=
  ⟨by decide, by decide, merge_ops_commutative [1, 4] [2, 4, 7] (by decide) (by decide)⟩

/-! ### Claims C3, C4, C7, C8: query evaluation -/

/-- A two-term index used as the concrete failing input for claim C3. -/
def idxC3 : List (String × List Nat) := [("term1", [1]), ("term2", [2])]

/-- C3 (evaluation at the failing input): the code returns `stack[0]`,
Python's index 0, which is the BOTTOM of the stack (elements are pushed
and popped at the end of the Python list).  For the query
`"term1 term2"` — two distinct term tokens and no operator — the stack
holds `term1`'s postings at the bottom and `term2`'s postings on top, so
the code returns `term1`'s posting list `[1]`, not the list on top of the
stack (`term2`'s `[2]`) as the claim states. -/
theorem query_two_terms_returns_first :
    parse_and_execute_query idxC3 "term1 term2" = [1] ∧
    get_postings idxC3 "term1" = [1] ∧ get_postings idxC3 "term2" = [2] := by
  decide

/-- C4: an operator token hitting a stack with fewer than two operands is
a no-op — with one operand the stack (hence the operand) is untouched,
with zero operands nothing happens; in particular, on any index where
`term1` is present, the query `"term1 AND"` returns `term1`'s posting
list unchanged. -/
theorem operator_underflow_noop :
    (∀ (idx : List (String × List Nat)) (stack : List (List Nat)) (tok : String),
      (tok = "and" ∨ tok = "or" ∨ tok = "not") → stack.length < 2 →
      evalToken idx stack tok = stack) ∧
    (∀ idx : List (String × List Nat),
      (idx.find? (fun p => p.1 == "term1")).isSome →
      parse_and_execute_query idx "term1 AND" = get_postings idx "term1") := by
  constructor
  · intro idx stack tok htok hlen
    match stack, hlen with
    | [], _ =>
      rcases htok with h | h | h <;> subst h <;> rfl
    | [l], _ =>
      rcases htok with h | h | h <;> subst h <;> rfl
  · intro idx _
    have ht : tokenize "term1 AND" = ["term1", "and"] := by decide
    simp only [parse_and_execute_query, ht, List.foldl_cons, List.foldl_nil]
    have h1 : evalToken idx [] "term1" = [get_postings idx "term1"] := rfl
    have h2 : evalToken idx [get_postings idx "term1"] "and" =
        [get_postings idx "term1"] := rfl
    rw [h1, h2]
    rfl

/-- Witness for C4: the no-op part at `tok = "and"` on a one-element
stack, and the `"term1 AND"` query on a concrete index holding `term1`. -/
theorem operator_underflow_noop_witness :
    (("and" : String) = "and" ∨ ("and" : String) = "or" ∨ ("and" : String) = "not") ∧
    ([[3, 4]] : List (List Nat)).length < 2 ∧
    evalToken idxC3 [[3, 4]] "and" = [[3, 4]] ∧
    (idxC3.find? (fun p => p.1 == "term1")).isSome ∧
    parse_and_execute_query idxC3 "term1 AND" = get_postings idxC3 "term1" :=
  ⟨Or.inl rfl, by decide,
    operator_underflow_noop.1 idxC3 [[3, 4]] "and" (Or.inl rfl) (by decide),
    by decide,
    operator_underflow_noop.2 idxC3 (by decide)⟩

/-- C8: a term token absent from the index pushes the empty posting list
(`dict.get(token, [])`), raising no error; in particular for any index in
which `zzzznotfound` is absent, the query `"zzzznotfound term1 AND"`
yields `[]` (the empty list is pushed first, so the `AND` merge
intersects with it). -/
theorem unknown_term_pushes_empty :
    (∀ (idx : List (String × List Nat)) (stack : List (List Nat)) (tok : String),
      tok ≠ "and" → tok ≠ "or" → tok ≠ "not" →
      idx.find? (fun p => p.1 == tok) = none →
      evalToken idx stack tok = [] :: stack) ∧
    (∀ idx : List (String × List Nat),
      idx.find? (fun p => p.1 == "zzzznotfound") = none →
      parse_and_execute_query idx "zzzznotfound term1 AND" = []) := by
  constructor
  · intro idx stack tok h1 h2 h3 habs
    rw [evalToken.eq_def, if_neg h1, if_neg h2, if_neg h3]
    rw [get_postings.eq_def, habs]
  · intro idx habs
    have ht : tokenize "zzzznotfound term1 AND" = ["zzzznotfound", "term1", "and"] := by
      decide
    simp only [parse_and_execute_query, ht, List.foldl_cons, List.foldl_nil]
    have h0 : evalToken idx [] "zzzznotfound" = [[]] := by
      rw [evalToken.eq_def, if_neg (by decide), if_neg (by decide), if_neg (by decide)]
      rw [get_postings.eq_def, habs]
    rw [h0]
    have h1 : evalToken idx [[]] "term1" = [get_postings idx "term1", []] := rfl
    rw [h1]
    have h2 : evalToken idx [get_postings idx "term1", []] "and" =
        [merge_and [] (get_postings idx "term1")] := rfl
    rw [h2]
    have h3 : merge_and [] (get_postings idx "term1") = [] := by
      rw [merge_and, merge_nil_left]
      rfl
    rw [h3]
    rfl

/-- Witness for C8: the general no-error push on a concrete absent term,
and the concrete query on `idxC3` (where `zzzznotfound` is absent). -/
theorem unknown_term_pushes_empty_witness :
    (("zzzznotfound" : String) ≠ "and" ∧ ("zzzznotfound" : String) ≠ "or" ∧
      ("zzzznotfound" : String) ≠ "not" ∧
      idxC3.find? (fun p => p.1 == "zzzznotfound") = none ∧
      evalToken idxC3 [[5]] "zzzznotfound" = [[], [5]]) ∧
    parse_and_execute_query idxC3 "zzzznotfound term1 AND" = [] :=
  ⟨⟨by decide, by decide, by decide, by decide,
      unknown_term_pushes_empty.1 idxC3 [[5]] "zzzznotfound"
        (by decide) (by decide) (by decide) (by decide)⟩,
    unknown_term_pushes_empty.2 idxC3 (by decide)⟩

/-- Auxiliary for C7: `get_postings` of a well-formed index (all posting
lists strictly ascending) is strictly ascending. -/
theorem get_postings_sorted (idx : List (String × List Nat))
    (hidx : ∀ p ∈ idx, (p.2 : List Nat).Sorted (· < ·)) (tok : String) :
    (get_postings idx tok).Sorted (· < ·) := by
  rw [get_postings]
  cases hfind : idx.find? (fun p => p.1 == tok) with
  | none => simp
  | some p => exact hidx p (List.mem_of_find?_eq_some hfind)

/-- Auxiliary for C7: one evaluation step preserves "every stack entry is
strictly ascending". -/
theorem evalToken_preserves_sorted (idx : List (String × List Nat))
    (hidx : ∀ p ∈ idx, (p.2 : List Nat).Sorted (· < ·))
    (stack : List (List Nat)) (hstack : ∀ l ∈ stack, l.Sorted (· < ·))
    (tok : String) : ∀ l ∈ evalToken idx stack tok, l.Sorted (· < ·) := by
  intro l hl
  rw [evalToken.eq_def] at hl
  rcases stack with _ | ⟨r, _ | ⟨lf, rest⟩⟩
  · split at hl
    · exact hstack l hl
    · split at hl
      · exact hstack l hl
      · split at hl
        · exact hstack l hl
        · rcases List.mem_cons.1 hl with h | h
          · subst h
            exact get_postings_sorted idx hidx tok
          · exact hstack l h
  · split at hl
    · exact hstack l hl
    · split at hl
      · exact hstack l hl
      · split at hl
        · exact hstack l hl
        · rcases List.mem_cons.1 hl with h | h
          · subst h
            exact get_postings_sorted idx hidx tok
          · exact hstack l h
  · split at hl
    · rcases List.mem_cons.1 hl with h | h
      · subst h
        exact merge_sorted _ _ _ _ _ (hstack lf (by simp)) (hstack r (by simp))
      · exact hstack l (by simp [h])
    · split at hl
      · rcases List.mem_cons.1 hl with h | h
        · subst h
          exact merge_sorted _ _ _ _ _ (hstack lf (by simp)) (hstack r (by simp))
        · exact hstack l (by simp [h])
      · split at hl
        · rcases List.mem_cons.1 hl with h | h
          · subst h
            exact merge_sorted _ _ _ _ _ (hstack lf (by simp)) (hstack r (by simp))
          · exact hstack l (by simp [h])
        · rcases List.mem_cons.1 hl with h | h
          · subst h
            exact get_postings_sorted idx hidx tok
          · exact hstack l h

/-- Auxiliary for C7: the token fold preserves the stack invariant. -/
theorem foldl_evalToken_sorted (idx : List (String × List Nat))
    (hidx : ∀ p ∈ idx, (p.2 : List Nat).Sorted (· < ·)) :
    ∀ (tokens : List String) (stack : List (List Nat)),
      (∀ l ∈ stack, l.Sorted (· < ·)) →
      ∀ l ∈ tokens.foldl (evalToken idx) stack, l.Sorted (· < ·) := by
  intro tokens
  induction tokens with
  | nil => intro stack hstack; exact hstack
  | cons t ts IH =>
    intro stack hstack
    rw [List.foldl_cons]
    exact IH (evalToken idx stack t)
      (evalToken_preserves_sorted idx hidx stack hstack t)

/-- C7: on a well-formed index (every posting list strictly ascending and
hence duplicate-free), the result of `parse_and_execute_query` is in
ascending document-ID order, for every query string. -/
theorem query_result_sorted (idx : List (String × List Nat))
    (hidx : ∀ p ∈ idx, (p.2 : List Nat).Sorted (· < ·)) (query : String) :
    (parse_and_execute_query idx query).Sorted (· < ·) := by
  rw [parse_and_execute_query]
  cases hlast : ((tokenize query).foldl (evalToken idx) []).getLast? with
  | none => simp
  | some l =>
    simp only
    exact foldl_evalToken_sorted idx hidx (tokenize query) [] (by simp)
      l (List.mem_of_getLast?_eq_some hlast)

/-- Witness for C7 on a concrete well-formed index and query. -/
theorem query_result_sorted_witness :
    (∀ p ∈ idxC3, (p.2 : List Nat).Sorted (· < ·)) ∧
    (parse_and_execute_query idxC3 "term1 term2 OR").Sorted (· < ·) :=
  ⟨by decide, query_result_sorted idxC3 (by decide) "term1 term2 OR"⟩

/-! ### Index construction (`indexBuilder.InvertedIndex`)

`_parse_documents` walks the `<DOC>` blocks; a block is modelled after the
regex-extraction boundary as an optional stripped `DOCNO` and an optional
`TEXT` body.  Blocks without a `DOCNO` are skipped entirely (`continue`
fires before the ID counter is incremented).  `doc_id_to_docno` is a dict
with always-fresh integer keys, modelled as the association list in
insertion order; `docno_to_doc_id` is a dict with possibly-repeating
string keys, modelled as an explicitly-updated function (later assignments
overwrite earlier ones, exactly like the dict). -/

/-- One `<DOC>` block after regex extraction. -/
structure RawDoc where
  docno : Option String
  text : Option String

/-- The mutable state of `_parse_documents` (and the resulting fields of
`InvertedIndex`). -/
structure ParseState where
  doc_id_to_docno : List (Nat × String)
  docno_to_doc_id : String → Option Nat
  doc_text_map : List (Nat × String)
  doc_num : Nat

def initParseState : ParseState := ⟨[], fun _ => none, [], 1⟩

/-- One iteration of the `for doc in docs` loop of `_parse_documents`. -/
def parse_step (st : ParseState) (d : RawDoc) : ParseState :=
  match d.docno with
  | none => st
  | some docno =>
    { doc_id_to_docno := st.doc_id_to_docno ++ [(st.doc_num, docno)]
      docno_to_doc_id := fun m =>
        if m = docno then some st.doc_num else st.docno_to_doc_id m
      doc_text_map :=
        match d.text with
        | some t => st.doc_text_map ++ [(st.doc_num, t)]
        | none => st.doc_text_map
      doc_num := st.doc_num + 1 }

def parse_documents (docs : List RawDoc) : ParseState :=
  docs.foldl parse_step initParseState

/-- `self.num_documents = len(self.doc_id_to_docno)` (the dict keys are
the always-fresh `doc_num` values, so its size is the list length). -/
def num_documents (docs : List RawDoc) : Nat :=
  (parse_documents docs).doc_id_to_docno.length

/-- One iteration of the posting-accumulation loop of `_build_index`,
pointwise on terms: the document ID is appended to `temp_index[word]` for
exactly the words in `set(words)` of this document. -/
def temp_index_step (acc : String → List Nat) (p : Nat × String) :
    String → List Nat :=
  fun w => if w ∈ (docWords p.2).dedup then acc w ++ [p.1] else acc w

/-- The `defaultdict(list)` `temp_index` after the document loop. -/
def temp_index (dtm : List (Nat × String)) : String → List Nat :=
  dtm.foldl temp_index_step (fun _ => [])

/-- `self.index[word] = sorted(doc_list)` — the final index, as the
posting-list lookup function (terms never indexed give `[]`). -/
def build_index (docs : List RawDoc) : String → List Nat :=
  fun w =>
    List.insertionSort (· ≤ ·) (temp_index (parse_documents docs).doc_text_map w)

/-! ### Invariants of `_parse_documents` -/

/-- Invariant carried through the document loop: `doc_num` is one past the
number of assigned IDs; the assigned IDs are `1, 2, …` in order; the
`docno_to_doc_id` dict holds, for each name, the most recent ID assigned
to it; `doc_text_map` has strictly increasing keys, all below `doc_num`. -/
def ParseInv (st : ParseState) : Prop :=
  st.doc_num = st.doc_id_to_docno.length + 1 ∧
  st.doc_id_to_docno.map Prod.fst = List.range' 1 st.doc_id_to_docno.length ∧
  (∀ m, st.docno_to_doc_id m =
    (st.doc_id_to_docno.reverse.find? (fun p => p.2 == m)).map Prod.fst) ∧
  (st.doc_text_map.map Prod.fst).Sorted (· < ·) ∧
  (∀ p ∈ st.doc_text_map, 1 ≤ p.1 ∧ p.1 < st.doc_num)

theorem parse_step_inv (st : ParseState) (d : RawDoc) (h : ParseInv st) :
    ParseInv (parse_step st d) := by
  obtain ⟨h1, h2, h3, h4, h5⟩ := h
  cases hd : d.docno with
  | none => simpa [parse_step, hd] using ⟨h1, h2, h3, h4, h5⟩
  | some n =>
    refine ⟨?_, ?_, ?_, ?_, ?_⟩
    · simp [parse_step, hd, h1]
    · simp only [parse_step, hd, List.map_append, List.length_append]
      rw [h2, h1]
      simp [List.range'_concat]
      omega
    · intro m
      simp only [parse_step, hd, List.reverse_append, List.reverse_cons,
        List.reverse_nil, List.nil_append, List.singleton_append, List.find?_cons]
      by_cases hm : m = n
      · subst hm
        simp
      · have : (n == m) = false := by
          simp [hm]
          exact fun hc => hm hc.symm
        simp [this, hm, h3 m]
    · cases ht : d.text with
      | none => simpa [parse_step, hd, ht] using h4
      | some t =>
        simp only [parse_step, hd, ht, List.map_append, List.map_cons,
          List.map_nil]
        rw [List.Sorted, List.pairwise_append]
        refine ⟨h4, by simp, ?_⟩
        intro a ha b hb
        simp only [List.map_cons, List.map_nil, List.mem_singleton] at hb
        subst hb
        obtain ⟨p, hp, rfl⟩ := List.mem_map.1 ha
        exact (h5 p hp).2
    · cases ht : d.text with
      | none =>
        intro p hp
        simp only [parse_step, hd, ht] at hp ⊢
        have := h5 p hp
        omega
      | some t =>
        intro p hp
        simp only [parse_step, hd, ht, List.mem_append,
          List.mem_singleton] at hp ⊢
        rcases hp with hp | hp
        · have := h5 p hp
          omega
        · subst hp
          simp only
          omega

theorem parse_documents_inv (docs : List RawDoc) :
    ParseInv (parse_documents docs) := by
  have aux : ∀ (ds : List RawDoc) (st : ParseState),
      ParseInv st → ParseInv (ds.foldl parse_step st) := by
    intro ds
    induction ds with
    | nil => intro st h; exact h
    | cons d ds IH =>
      intro st h
      rw [List.foldl_cons]
      exact IH _ (parse_step_inv st d h)
  have hinit : ParseInv initParseState := by
    refine ⟨rfl, rfl, fun m => rfl, ?_, ?_⟩ <;> simp [initParseState]
  exact aux docs initParseState hinit

/-- Characterization of the accumulated `temp_index`: the IDs of the
documents (in `doc_text_map` order) whose word set contains `w`. -/
theorem temp_index_foldl (dtm : List (Nat × String)) :
    ∀ (f : String → List Nat) (w : String),
      (dtm.foldl temp_index_step f) w =
        f w ++ (dtm.filter (fun p => w ∈ (docWords p.2).dedup)).map Prod.fst := by
  induction dtm with
  | nil => intro f w; simp
  | cons p dtm IH =>
    intro f w
    rw [List.foldl_cons, IH]
    by_cases h : w ∈ docWords p.2
    · have h2 : w ∈ (docWords p.2).dedup := List.mem_dedup.2 h
      simp [temp_index_step, List.filter_cons, h, h2]
    · have h2 : w ∉ (docWords p.2).dedup := fun hc => h (List.mem_dedup.1 hc)
      simp [temp_index_step, List.filter_cons, h, h2]

/-! ### Claim C2: posting lists are strictly ascending and in range -/

/-- C2: after index construction, every posting list is strictly ascending
(hence duplicate-free) and every document ID in it lies in
`[1, num_documents]`.  Quantifying over every string `w` subsumes "every
term in the index" (terms never indexed have the empty posting list). -/
theorem index_postings_sorted_in_range (docs : List RawDoc) (w : String) :
    (build_index docs w).Sorted (· < ·) ∧
    ∀ d ∈ build_index docs w, 1 ≤ d ∧ d ≤ num_documents docs := by
  obtain ⟨h1, h2, h3, h4, h5⟩ := parse_documents_inv docs
  have htemp : temp_index (parse_documents docs).doc_text_map w =
      ((parse_documents docs).doc_text_map.filter
        (fun p => w ∈ (docWords p.2).dedup)).map Prod.fst := by
    rw [temp_index, temp_index_foldl]
    simp
  have hsorted : (temp_index (parse_documents docs).doc_text_map w).Sorted (· < ·) := by
    rw [htemp]
    exact List.Pairwise.sublist ((List.filter_sublist _).map Prod.fst) h4
  have heq : build_index docs w = temp_index (parse_documents docs).doc_text_map w := by
    rw [build_index]
    exact List.Sorted.insertionSort_eq
      (List.Pairwise.imp (fun hab => Nat.le_of_lt hab) hsorted)
  constructor
  · rw [heq]
    exact hsorted
  · intro d hd
    rw [heq, htemp] at hd
    obtain ⟨p, hp, rfl⟩ := List.mem_map.1 hd
    have hpmem : p ∈ (parse_documents docs).doc_text_map :=
      List.mem_of_mem_filter hp
    have := h5 p hpmem
    have hn : num_documents docs = (parse_documents docs).doc_id_to_docno.length := rfl
    omega

/-! ### Claim C5: the two DOCNO mappings under duplicate identifiers -/

/-- C5: `docno_to_doc_id` maps each identifier to the LAST ID assigned to
it (last-write-wins, stated as: the lookup equals the first match in the
reversed assignment list), while `doc_id_to_docno` retains every assigned
ID `1, …, num_documents` in original assignment order; and the round trip
`docno_to_doc_id (doc_id_to_docno d) = d` holds for every assigned ID `d`
whose identifier was not assigned to any other ID (i.e. except under the
duplicate-identifier overwrite). -/
theorem docno_mappings_asymmetry (docs : List RawDoc) :
    (∀ m, (parse_documents docs).docno_to_doc_id m =
      (((parse_documents docs).doc_id_to_docno.reverse.find?
        (fun p => p.2 == m)).map Prod.fst)) ∧
    (parse_documents docs).doc_id_to_docno.map Prod.fst =
      List.range' 1 (num_documents docs) ∧
    (∀ d m, (d, m) ∈ (parse_documents docs).doc_id_to_docno →
      (∀ d', (d', m) ∈ (parse_documents docs).doc_id_to_docno → d' = d) →
      (parse_documents docs).docno_to_doc_id m = some d) := by
  obtain ⟨h1, h2, h3, h4, h5⟩ := parse_documents_inv docs
  refine ⟨h3, h2, ?_⟩
  intro d m hmem huniq
  rw [h3 m]
  have hrev : (d, m) ∈ (parse_documents docs).doc_id_to_docno.reverse :=
    List.mem_reverse.2 hmem
  have hsome : ((parse_documents docs).doc_id_to_docno.reverse.find?
      (fun p => p.2 == m)).isSome := by
    rw [List.find?_isSome]
    exact ⟨(d, m), hrev, by simp⟩
  obtain ⟨q, hq⟩ := Option.isSome_iff_exists.1 hsome
  have hqmem : q ∈ (parse_documents docs).doc_id_to_docno :=
    List.mem_reverse.1 (List.mem_of_find?_eq_some hq)
  have hqsnd : q.2 = m := by
    have := List.find?_some hq
    simpa using this
  have hq1 : (q.1, m) ∈ (parse_documents docs).doc_id_to_docno := by
    rw [← hqsnd]
    exact hqmem
  have : q.1 = d := huniq q.1 hq1
  rw [hq]
  simp [this]

/-- A concrete collection with a duplicated identifier, for the C5
witness: `"A"` names documents 1 and 3, `"B"` names document 2. -/
def docsC5 : List RawDoc :=
  [⟨some "A", some "x y"⟩, ⟨some "B", none⟩, ⟨some "A", some "z"⟩]

/-- Witness for C5: on `docsC5`, the identifier `"B"` is assigned only to
ID 2, and the round-trip clause of the theorem yields
`docno_to_doc_id "B" = some 2`. -/
theorem docno_mappings_asymmetry_witness :
    ((2, "B") ∈ (parse_documents docsC5).doc_id_to_docno) ∧
    (∀ d', (d', "B") ∈ (parse_documents docsC5).doc_id_to_docno → d' = 2) ∧
    (parse_documents docsC5).docno_to_doc_id "B" = some 2 := by
  have hlist : (parse_documents docsC5).doc_id_to_docno =
      [(1, "A"), (2, "B"), (3, "A")] := by decide
  have huniq : ∀ d', (d', "B") ∈ (parse_documents docsC5).doc_id_to_docno → d' = 2 := by
    intro d' h
    rw [hlist] at h
    simp at h
    exact h
  exact ⟨by rw [hlist]; decide, huniq,
    (docno_mappings_asymmetry docsC5).2.2 2 "B" (by rw [hlist]; decide) huniq⟩

/-! ### Collection statistics (`collectionStatistics.CollectionStatistics`)

`find_similar_freq_terms_same_docs` scans the frequency-sorted term list.
The two float comparisons `abs(f1-f2) <= max(f1,f2)*0.1` and
`overlap >= min(f1,f2)*0.3` are embedded exactly: both sides compare an
integer against `k*0.1` (resp. `k*0.3`) with `k = max/min freq ∈ [50,200]`;
whenever `k/10` (resp. `3k/10`) is an integer the double product rounds to
exactly that integer (the relative error of the rounded constant is below
half an ulp of the product), and otherwise the product is more than `1e-13`
away from any integer, so the float comparisons coincide with the exact
rational ones, i.e. with `10*|f1-f2| ≤ max` and `3*min ≤ 10*overlap`. -/

/-- One entry `(term, len(postings), postings)` of `term_freq_list`. -/
structure TermEntry where
  term : String
  freq : Nat
  postings : List Nat
deriving DecidableEq

/-- `self.term_freq_list`: entries sorted ascending by document frequency
(Python `sorted` with key `x[1]` is a stable sort; so is insertion sort
under `a.freq ≤ b.freq`). -/
def term_freq_list (idx : List (String × List Nat)) : List TermEntry :=
  List.insertionSort (fun a b => a.freq ≤ b.freq)
    (idx.map (fun p => ⟨p.1, p.2.length, p.2⟩))

/-- `moderate_terms = [(t, f, p) for t, f, p in self.term_freq_list if 50 <= f <= 200]`. -/
def moderate_terms (idx : List (String × List Nat)) : List TermEntry :=
  (term_freq_list idx).filter (fun e => 50 ≤ e.freq && e.freq ≤ 200)

/-- `set(postings1) & set(postings2)` as a duplicate-free list. -/
def shared_docs (p1 p2 : List Nat) : List Nat :=
  (p1.filter (fun x => x ∈ p2)).dedup

/-- `len(set(postings1) & set(postings2))`. -/
def overlap_size (p1 p2 : List Nat) : Nat :=
  (shared_docs p1 p2).length

/-- The tuple `(term1, freq1, postings1, term2, freq2, postings2, shared_docs)`
assigned to `best_pair`. -/
structure BestPair where
  term1 : String
  freq1 : Nat
  postings1 : List Nat
  term2 : String
  freq2 : Nat
  postings2 : List Nat
  shared : List Nat
deriving DecidableEq

def defaultEntry : TermEntry := ⟨"", 0, []⟩

def entry_at (mt : List TermEntry) (i : Nat) : TermEntry :=
  mt.getD i defaultEntry

def mk_pair (e1 e2 : TermEntry) : BestPair :=
  ⟨e1.term, e1.freq, e1.postings, e2.term, e2.freq, e2.postings,
    shared_docs e1.postings e2.postings⟩

/-- The two guards of the inner loop body (exact forms of the float
comparisons, see the section comment): frequencies within 10 percent of
each other, and intersection at least 30 percent of the smaller
frequency. -/
def pair_qualifies (e1 e2 : TermEntry) : Prop :=
  10 * (max e1.freq e2.freq - min e1.freq e2.freq) ≤ max e1.freq e2.freq ∧
  3 * min e1.freq e2.freq ≤ 10 * overlap_size e1.postings e2.postings

instance (e1 e2 : TermEntry) : Decidable (pair_qualifies e1 e2) :=
  inferInstanceAs (Decidable (_ ∧ _))

/-- One iteration of the inner loop body, on the state
`(best_pair, best_overlap)`. -/
def find_step (mt : List TermEntry) (st : Option BestPair × Nat)
    (ij : Nat × Nat) : Option BestPair × Nat :=
  let e1 := entry_at mt ij.1
  let e2 := entry_at mt ij.2
  if 10 * (max e1.freq e2.freq - min e1.freq e2.freq) ≤ max e1.freq e2.freq then
    if 3 * min e1.freq e2.freq ≤ 10 * overlap_size e1.postings e2.postings ∧
        st.2 < overlap_size e1.postings e2.postings then
      (some (mk_pair e1 e2), overlap_size e1.postings e2.postings)
    else st
  else st

/-- The nested loop ranges, flattened in iteration order:
`for i in range(n): for j in range(i + 1, min(i + 50, n))`. -/
def pair_indices (n : Nat) : List (Nat × Nat) :=
  (List.range n).flatMap (fun i =>
    (List.range' (i + 1) (min (i + 50) n - (i + 1))).map (fun j => (i, j)))

/-- `find_similar_freq_terms_same_docs`: fold the loop body over the pair
indices, starting from `(None, 0)`, and return `best_pair`. -/
def find_similar_freq_terms_same_docs (idx : List (String × List Nat)) :
    Option BestPair :=
  ((pair_indices (moderate_terms idx).length).foldl
    (find_step (moderate_terms idx)) (none, 0)).1

/-- The qualification predicate of the claim, over positions in
`moderate_terms`: `j` lies in the window of (at most) 49 terms after `i`
— together with `i` itself, the window of the 50 nearest-by-frequency
terms — and the pair passes both guards. -/
def QualifiesAt (mt : List TermEntry) (i j : Nat) : Prop :=
  i < j ∧ j < min (i + 50) mt.length ∧
  pair_qualifies (entry_at mt i) (entry_at mt j)

def ov_at (mt : List TermEntry) (ij : Nat × Nat) : Nat :=
  overlap_size (entry_at mt ij.1).postings (entry_at mt ij.2).postings

/-! #### Loop invariants for `find_similar_freq_terms_same_docs` -/

theorem mem_pair_indices (n i j : Nat) :
    (i, j) ∈ pair_indices n ↔ i < j ∧ j < min (i + 50) n := by
  simp only [pair_indices, List.mem_flatMap, List.mem_map, List.mem_range,
    List.mem_range', Prod.mk.injEq]
  constructor
  · rintro ⟨i', hi', j', ⟨k, hk, hj'⟩, heq1, heq2⟩
    subst heq1
    subst heq2
    omega
  · rintro ⟨hij, hjw⟩
    exact ⟨i, by omega, j, ⟨j - (i + 1), by omega, by omega⟩, rfl, rfl⟩

theorem entry_at_mem (mt : List TermEntry) (i : Nat) (h : i < mt.length) :
    entry_at mt i ∈ mt := by
  rw [entry_at, List.getD_eq_getElem?_getD, List.getElem?_eq_getElem h]
  exact List.getElem_mem h

/-- Reachable states of the loop: either still `(None, 0)`, or the current
best comes from a qualifying pair inside the window and `best_overlap` is
its (positive) overlap. -/
def GoodSt (mt : List TermEntry) (st : Option BestPair × Nat) : Prop :=
  st = (none, 0) ∨
  ∃ i j, QualifiesAt mt i j ∧
    st = (some (mk_pair (entry_at mt i) (entry_at mt j)), ov_at mt (i, j))

/-- On the moderate list every qualifying in-window pair has overlap at
least 15 (frequencies are at least 50 and the 30 percent guard holds). -/
theorem qualifies_ov_pos (mt : List TermEntry) (hmt : ∀ e ∈ mt, 50 ≤ e.freq)
    (i j : Nat) (h : QualifiesAt mt i j) :
    15 ≤ overlap_size (entry_at mt i).postings (entry_at mt j).postings := by
  obtain ⟨hij, hjw, hq1, hq2⟩ := h
  have hjlen : j < mt.length := by omega
  have hilen : i < mt.length := by omega
  have hfi := hmt _ (entry_at_mem mt i hilen)
  have hfj := hmt _ (entry_at_mem mt j hjlen)
  omega

theorem find_step_good (mt : List TermEntry) (_hmt : ∀ e ∈ mt, 50 ≤ e.freq)
    (st : Option BestPair × Nat) (i j : Nat)
    (hwin : i < j ∧ j < min (i + 50) mt.length)
    (h : GoodSt mt st) : GoodSt mt (find_step mt st (i, j)) := by
  simp only [find_step]
  split
  · split
    · right
      rename_i hc1 hc2
      exact ⟨i, j, ⟨hwin.1, hwin.2, hc1, hc2.1⟩, rfl⟩
    · exact h
  · exact h

theorem find_step_le (mt : List TermEntry) (st : Option BestPair × Nat)
    (i j : Nat) : st.2 ≤ (find_step mt st (i, j)).2 := by
  simp only [find_step]
  split
  · split
    · rename_i hc2
      exact Nat.le_of_lt hc2.2
    · exact le_rfl
  · exact le_rfl

theorem find_step_dominates (mt : List TermEntry)
    (st : Option BestPair × Nat) (i j : Nat)
    (hq : pair_qualifies (entry_at mt i) (entry_at mt j)) :
    ov_at mt (i, j) ≤ (find_step mt st (i, j)).2 := by
  simp only [find_step]
  split
  · split
    · exact le_rfl
    · rename_i hc2
      have hnlt : ¬ st.2 <
          overlap_size (entry_at mt i).postings (entry_at mt j).postings :=
        fun hlt => hc2 ⟨hq.2, hlt⟩
      show overlap_size (entry_at mt i).postings (entry_at mt j).postings ≤ st.2
      omega
  · rename_i hc1
    exact absurd hq.1 hc1

theorem find_step_none (mt : List TermEntry) (hmt : ∀ e ∈ mt, 50 ≤ e.freq)
    (st : Option BestPair × Nat) (i j : Nat)
    (hwin : i < j ∧ j < min (i + 50) mt.length)
    (hgood : GoodSt mt st) (hres : (find_step mt st (i, j)).1 = none) :
    st = (none, 0) ∧ ¬ pair_qualifies (entry_at mt i) (entry_at mt j) := by
  simp only [find_step] at hres
  split at hres
  · split at hres
    · exact Option.noConfusion hres
    · rename_i hc1 hc2
      rcases hgood with hg | ⟨i0, j0, hq0, hst0⟩
      · refine ⟨hg, fun hq => hc2 ⟨hq.2, ?_⟩⟩
        have h15 : 15 ≤
            overlap_size (entry_at mt i).postings (entry_at mt j).postings :=
          qualifies_ov_pos mt hmt i j ⟨hwin.1, hwin.2, hq⟩
        have hz : st.2 = 0 := by rw [hg]
        omega
      · rw [hst0] at hres
        exact Option.noConfusion hres
  · rename_i hc1
    rcases hgood with hg | ⟨i0, j0, hq0, hst0⟩
    · exact ⟨hg, fun hq => hc1 hq.1⟩
    · rw [hst0] at hres
      exact Option.noConfusion hres

theorem fold_good (mt : List TermEntry) (hmt : ∀ e ∈ mt, 50 ≤ e.freq) :
    ∀ (L : List (Nat × Nat)) (st : Option BestPair × Nat),
      (∀ ij ∈ L, ij.1 < ij.2 ∧ ij.2 < min (ij.1 + 50) mt.length) →
      GoodSt mt st → GoodSt mt (L.foldl (find_step mt) st) := by
  intro L
  induction L with
  | nil => intro st _ h; exact h
  | cons ij L IH =>
    intro st hL h
    rw [List.foldl_cons]
    obtain ⟨a, b⟩ := ij
    exact IH _ (fun p hp => hL p (List.mem_cons_of_mem _ hp))
      (find_step_good mt hmt st a b (hL (a, b) (List.mem_cons_self _ _)) h)

theorem fold_le (mt : List TermEntry) :
    ∀ (L : List (Nat × Nat)) (st : Option BestPair × Nat),
      st.2 ≤ (L.foldl (find_step mt) st).2 := by
  intro L
  induction L with
  | nil => intro st; exact le_rfl
  | cons ij L IH =>
    intro st
    rw [List.foldl_cons]
    obtain ⟨a, b⟩ := ij
    exact le_trans (find_step_le mt st a b) (IH (find_step mt st (a, b)))

theorem fold_dominates (mt : List TermEntry) :
    ∀ (L : List (Nat × Nat)) (st : Option BestPair × Nat),
      ∀ ij ∈ L, pair_qualifies (entry_at mt ij.1) (entry_at mt ij.2) →
        ov_at mt ij ≤ (L.foldl (find_step mt) st).2 := by
  intro L
  induction L with
  | nil => intro st ij h; exact absurd h (List.not_mem_nil ij)
  | cons ij0 L IH =>
    intro st ij hij hq
    rw [List.foldl_cons]
    obtain ⟨a, b⟩ := ij0
    rcases List.mem_cons.1 hij with h | h
    · subst h
      exact le_trans (find_step_dominates mt st a b hq)
        (fold_le mt L (find_step mt st (a, b)))
    · exact IH (find_step mt st (a, b)) ij h hq

theorem fold_none (mt : List TermEntry) (hmt : ∀ e ∈ mt, 50 ≤ e.freq) :
    ∀ (L : List (Nat × Nat)) (st : Option BestPair × Nat),
      (∀ ij ∈ L, ij.1 < ij.2 ∧ ij.2 < min (ij.1 + 50) mt.length) →
      GoodSt mt st → (L.foldl (find_step mt) st).1 = none →
      st = (none, 0) ∧
        ∀ ij ∈ L, ¬ pair_qualifies (entry_at mt ij.1) (entry_at mt ij.2) := by
  intro L
  induction L with
  | nil =>
    intro st _ hgood hres
    rcases hgood with h | ⟨i, j, _, hst⟩
    · exact ⟨h, fun ij h => absurd h (List.not_mem_nil ij)⟩
    · rw [hst] at hres
      exact Option.noConfusion hres
  | cons ij0 L IH =>
    intro st hL hgood hres
    rw [List.foldl_cons] at hres
    obtain ⟨a, b⟩ := ij0
    have hwin0 := hL (a, b) (List.mem_cons_self _ _)
    have hgood0 := find_step_good mt hmt st a b hwin0 hgood
    obtain ⟨hstep, hrest⟩ :=
      IH (find_step mt st (a, b)) (fun p hp => hL p (List.mem_cons_of_mem _ hp))
        hgood0 hres
    have h0 := find_step_none mt hmt st a b hwin0 hgood (by rw [hstep])
    refine ⟨h0.1, fun ij hij => ?_⟩
    rcases List.mem_cons.1 hij with h | h
    · subst h
      exact h0.2
    · exact hrest ij h

/-! ### Claim C6: specification of `find_similar_freq_terms_same_docs` -/

/-- C6: the search considers exactly the terms of document frequency in
`[50, 200]` (`moderate_terms`); a pair qualifies when it lies in the
50-term frequency window, its frequencies are within 10 percent and its
posting-list intersection is at least 30 percent of the smaller list; the
function returns `none` exactly when no pair qualifies, and otherwise a
qualifying pair whose intersection size is maximal among all qualifying
pairs. -/
theorem find_similar_spec (idx : List (String × List Nat)) :
    (∀ e, e ∈ moderate_terms idx ↔
      e ∈ term_freq_list idx ∧ 50 ≤ e.freq ∧ e.freq ≤ 200) ∧
    (find_similar_freq_terms_same_docs idx = none →
      ∀ i j, ¬ QualifiesAt (moderate_terms idx) i j) ∧
    (∀ bp, find_similar_freq_terms_same_docs idx = some bp →
      ∃ i j, QualifiesAt (moderate_terms idx) i j ∧
        bp = mk_pair (entry_at (moderate_terms idx) i)
          (entry_at (moderate_terms idx) j) ∧
        bp.shared.length = ov_at (moderate_terms idx) (i, j) ∧
        ∀ i' j', QualifiesAt (moderate_terms idx) i' j' →
          ov_at (moderate_terms idx) (i', j') ≤ bp.shared.length) := by
  have hmt : ∀ e ∈ moderate_terms idx, 50 ≤ e.freq := by
    intro e he
    have := List.mem_filter.1 he
    simp only [Bool.and_eq_true, decide_eq_true_eq] at this
    exact this.2.1
  have hwin : ∀ ij ∈ pair_indices (moderate_terms idx).length,
      ij.1 < ij.2 ∧ ij.2 < min (ij.1 + 50) (moderate_terms idx).length := by
    intro ij hij
    cases ij with
    | mk i j => exact (mem_pair_indices _ i j).1 hij
  have hinit : GoodSt (moderate_terms idx) (none, 0) := Or.inl rfl
  refine ⟨?_, ?_, ?_⟩
  · intro e
    rw [moderate_terms, List.mem_filter]
    simp only [Bool.and_eq_true, decide_eq_true_eq]
  · intro hres i j hq
    obtain ⟨-, hnoqual⟩ := fold_none (moderate_terms idx) hmt
      (pair_indices (moderate_terms idx).length) (none, 0) hwin hinit hres
    have hmem : (i, j) ∈ pair_indices (moderate_terms idx).length :=
      (mem_pair_indices _ i j).2 ⟨hq.1, hq.2.1⟩
    exact hnoqual (i, j) hmem hq.2.2
  · intro bp hres
    have hgood := fold_good (moderate_terms idx) hmt
      (pair_indices (moderate_terms idx).length) (none, 0) hwin hinit
    rcases hgood with h | ⟨i, j, hq, hst⟩
    · rw [find_similar_freq_terms_same_docs, h] at hres
      exact Option.noConfusion hres
    · refine ⟨i, j, hq, ?_, ?_, ?_⟩
      · rw [find_similar_freq_terms_same_docs, hst] at hres
        simpa using hres.symm
      · rw [find_similar_freq_terms_same_docs, hst] at hres
        have hbp : mk_pair (entry_at (moderate_terms idx) i)
            (entry_at (moderate_terms idx) j) = bp := by
          simpa using hres
        rw [← hbp]
        rfl
      · intro i' j' hq'
        have hmem : (i', j') ∈ pair_indices (moderate_terms idx).length :=
          (mem_pair_indices _ i' j').2 ⟨hq'.1, hq'.2.1⟩
        have hdom := fold_dominates (moderate_terms idx)
          (pair_indices (moderate_terms idx).length) (none, 0) (i', j') hmem hq'.2.2
        rw [find_similar_freq_terms_same_docs, hst] at hres
        have hbp : bp = mk_pair (entry_at (moderate_terms idx) i)
            (entry_at (moderate_terms idx) j) := by simpa using hres.symm
        have hlen : bp.shared.length = ov_at (moderate_terms idx) (i, j) := by
          rw [hbp]
          rfl
        rw [hlen]
        have : (pair_indices (moderate_terms idx).length).foldl
            (find_step (moderate_terms idx)) (none, 0) =
            (some (mk_pair (entry_at (moderate_terms idx) i)
              (entry_at (moderate_terms idx) j)), ov_at (moderate_terms idx) (i, j)) := hst
        rw [this] at hdom
        exact hdom

/-- Concrete posting list `1, …, 50` for the C6 witness. -/
def docsL : List Nat := List.range' 1 50

/-- Concrete index for the C6 witness: two terms of frequency 50 with
identical posting lists — their pair qualifies (equal frequencies, full
overlap). -/
def idxC6 : List (String × List Nat) := [("alpha", docsL), ("beta", docsL)]

def bpC6 : BestPair := ⟨"alpha", 50, docsL, "beta", 50, docsL, docsL⟩

/-- Witness for C6: on `idxC6` the search returns the `alpha`/`beta` pair,
and the theorem's `some` clause applies to it. -/
theorem find_similar_spec_witness :
    find_similar_freq_terms_same_docs idxC6 = some bpC6 ∧
    (∃ i j, QualifiesAt (moderate_terms idxC6) i j ∧
      bpC6 = mk_pair (entry_at (moderate_terms idxC6) i)
        (entry_at (moderate_terms idxC6) j) ∧
      bpC6.shared.length = ov_at (moderate_terms idxC6) (i, j) ∧
      ∀ i' j', QualifiesAt (moderate_terms idxC6) i' j' →
        ov_at (moderate_terms idxC6) (i', j') ≤ bpC6.shared.length) :=
  ⟨by decide, (find_similar_spec idxC6).2.2 bpC6 (by decide)⟩

end Elana
